import Mathlib

/-!
# Verification of the 98-cards game engine (`main.py`)

This file gives a shallow embedding of the core of the repository:
the `Stack` data model, the move-legality predicate `is_valid_move`,
the game loop `play_game` (deck, hand, four stacks, redraw policy),
the two scoring heuristics (`GreedyDifferenceStrategy.score_move` and
`WidestRangeStrategy.score_move`) and the strategy factory
`get_strategy`; and it proves or refutes the specification's claims
about them.

Modelling conventions:
* Cards are `Nat` (Python ints in `[2, 99]`); quantities that may go
  negative in Python (scores, range lengths, differences) are `Int`.
* Python's `deck` is popped from the *end* (`deck.pop()`); the embedded
  deck list is kept in pop order, head = next card popped.  The shuffled
  order produced by `random.seed`/`random.shuffle` is not modelled: the
  shuffled deck is a parameter (a permutation of the full card range),
  which covers every seed.
* Python's `hand` is a `set` of ints; it is modelled as a `List Nat`
  (`set.add` is `List.insert`, which inserts only if absent, and
  `set.remove` is `List.erase`).  The set's iteration order is
  irrelevant to the claims because the move actually applied each turn
  is either universally quantified (the `Reaches` relation) or supplied
  by an explicit choice function.
* Falling off the end of the Python function body (returning `None`)
  is `Option`: `play_game` yields `some (some n)` for `return n`,
  `some none` for an implicit `return None`, and `none` only for fuel
  exhaustion of the embedded loop (shown unreachable for strategies
  that pick legal moves).
-/

/-! ## Constants (module-level constants of `main.py`) -/

def LOWEST_CARD : Nat := 2
def HIGHEST_CARD : Nat := 99
def DIFFERENCE_RULE : Nat := 10
def HAND_SIZE : Nat := 8
def REDRAW_MARGIN : Nat := 2

/-! ## Data model -/

/-- `class Stack`: direction flag `is_up` and the played cards,
last = most recently added = top. -/
structure Stack where
  is_up : Bool
  cards : List Nat
deriving Repr, DecidableEq, Inhabited

/-- `is_valid_move(candidate, stack)`: empty stack accepts anything;
otherwise rule of tens (`abs(candidate - top) == DIFFERENCE_RULE`), or
the ordering rule for the stack's direction. -/
def is_valid_move (candidate : Nat) (stack : Stack) : Bool :=
  match stack.cards.getLast? with
  | none => true
  | some top =>
    if ((candidate : Int) - (top : Int)).natAbs = DIFFERENCE_RULE then true
    else if stack.is_up then decide (candidate > top)
    else decide (candidate < top)

/-- Game state at the top of the turn loop of `play_game`: the deck (in
pop order, head popped first), the hand, and the four stacks. -/
structure GameState where
  deck : List Nat
  hand : List Nat
  stacks' : List Stack
deriving Repr, DecidableEq

/-- `list(range(LOWEST_CARD, HIGHEST_CARD + 1))`: the full card range
`[2, ..., 99]` (before shuffling). -/
def full_deck : List Nat := List.range' LOWEST_CARD (HIGHEST_CARD + 1 - LOWEST_CARD)

/-- Initial state of `play_game` for a given shuffled deck `deck0`
(in pop order): two up-stacks then two down-stacks, and a hand of
`HAND_SIZE` cards popped from the deck. -/
def init (deck0 : List Nat) : GameState :=
  { deck := deck0.drop HAND_SIZE,
    hand := deck0.take HAND_SIZE,
    stacks' := [⟨true, []⟩, ⟨true, []⟩, ⟨false, []⟩, ⟨false, []⟩] }

/-- The legal-move enumeration of the turn loop: for every card in hand
and every stack index, `(card, stack_i)` if `is_valid_move`. -/
def valid_moves (hand : List Nat) (stacks' : List Stack) : List (Nat × Nat) :=
  hand.flatMap (fun card =>
    (stacks'.enum.filter (fun p => is_valid_move card p.2)).map (fun p => (card, p.1)))

/-- `stacks[target_stack].cards.append(best_card)`. -/
def push_card (s : Stack) (c : Nat) : Stack :=
  { s with cards := s.cards ++ [c] }

/-- Apply a chosen move: append the card to the target stack, remove it
from the hand.  (For moves coming from `valid_moves` the stack index is
always in range and the card is always in the hand.) -/
def apply_move (st : GameState) (m : Nat × Nat) : GameState :=
  match st.stacks'.get? m.2 with
  | none => st
  | some s =>
    { st with
      stacks' := st.stacks'.set m.2 (push_card s m.1),
      hand := st.hand.erase m.1 }

/-- One iteration of the redraw `for` loop body:
`if len(deck) > 0: hand.add(deck.pop())`. -/
def draw1 (st : GameState) : GameState :=
  match st.deck with
  | [] => st
  | c :: rest => { st with deck := rest, hand := st.hand.insert c }

/-- `for _ in xrange(n): if len(deck) > 0: hand.add(deck.pop())`. -/
def drawN : Nat → GameState → GameState
  | 0, st => st
  | n + 1, st => drawN n (draw1 st)

/-- Lines 110–113 of `main.py`: top up the hand when its size has
dropped by exactly `REDRAW_MARGIN` and the deck is non-empty. -/
def redraw (st : GameState) : GameState :=
  if (HAND_SIZE : Int) - (st.hand.length : Int) = (REDRAW_MARGIN : Int) ∧ st.deck ≠ [] then
    drawN REDRAW_MARGIN st
  else st

/-- A strategy's `get_move(valid_moves, hand, stacks, deck)` as a
function. -/
def Chooser : Type :=
  List (Nat × Nat) → List Nat → List Stack → List Nat → (Nat × Nat)

/-- Result of one iteration of the turn loop body. -/
inductive StepRes where
  | stuck (score : Nat)
  | next (st : GameState)
deriving Repr, DecidableEq

/-- One iteration of the `while` body: enumerate legal moves; if none,
return `len(deck) + len(hand)`; otherwise apply the strategy's move and
run the redraw check. -/
def step (choose : Chooser) (st : GameState) : StepRes :=
  let vm := valid_moves st.hand st.stacks'
  if vm = [] then .stuck (st.deck.length + st.hand.length)
  else .next (redraw (apply_move st (choose vm st.hand st.stacks' st.deck)))

/-- The fueled `while len(deck) > 0` loop.  `some (some n)` models
`return n`; `some none` models the implicit `return None` when the loop
condition fails; `none` is fuel exhaustion (never reached with enough
fuel, see the termination theorem). -/
def play_loop (choose : Chooser) : Nat → GameState → Option (Option Nat)
  | 0, _ => none
  | fuel + 1, st =>
    if st.deck = [] then some none
    else
      match step choose st with
      | .stuck sc => some (some sc)
      | .next st2 => play_loop choose fuel st2

/-- `play_game(strategy, seed)` with the shuffled deck made explicit.
`deck0.length + 1` units of fuel always suffice (each turn moves one
card out of `deck ∪ hand` for good). -/
def play_game (choose : Chooser) (deck0 : List Nat) : Option (Option Nat) :=
  play_loop choose (deck0.length + 1) (init deck0)

/-- Reachability of a loop-top state from another by turns of the
engine: each turn requires a non-empty deck (the `while` condition) and
applies some member of the legal-move set, then the redraw check.  Real
games are instances (every strategy's `get_move` returns an element of
`valid_moves`). -/
inductive Reaches : GameState → GameState → Prop where
  | refl (st : GameState) : Reaches st st
  | step {st st' : GameState} {m : Nat × Nat} :
      st.deck ≠ [] →
      m ∈ valid_moves st.hand st.stacks' →
      Reaches (redraw (apply_move st m)) st' →
      Reaches st st'

/-! ## Strategy scoring functions -/

/-- `GreedyDifferenceStrategy.score_move`: signed gap from the stack's
current top to the candidate, where an empty stack's top counts as
`LOWEST_CARD` (up) or `HIGHEST_CARD` (down); the sign is flipped for an
up-stack.  `none` models the `IndexError` raised by `stacks[move[1]]`
for an out-of-range index (never reached for enumerated moves). -/
def GreedyDifferenceStrategy.score_move (move : Nat × Nat) (stacks' : List Stack) :
    Option Int :=
  match stacks'.get? move.2 with
  | none => none
  | some stack =>
    let current_top : Nat :=
      match stack.cards.getLast? with
      | none => if stack.is_up then LOWEST_CARD else HIGHEST_CARD
      | some t => t
    let score : Int := (move.1 : Int) - (current_top : Int)
    some (if stack.is_up then -score else score)

namespace WidestRangeStrategy

/-- `get_range_interval(stack)`: inclusive interval of cards still
playable by the plain ordering rule; the empty stack's top counts as
`LOWEST_CARD - 1` (up) or `HIGHEST_CARD + 1` (down). -/
def get_range_interval (stack : Stack) : Int × Int :=
  let current_top : Int :=
    match stack.cards.getLast? with
    | none => if stack.is_up then (LOWEST_CARD : Int) - 1 else (HIGHEST_CARD : Int) + 1
    | some t => (t : Int)
  if stack.is_up then (current_top + 1, (HIGHEST_CARD : Int))
  else ((LOWEST_CARD : Int), current_top - 1)

/-- `range_len(r)`: `r[1] - r[0]` (the intentional `b - a`, not
`b - a + 1`). -/
def range_len (r : Int × Int) : Int := r.2 - r.1

/-- `range_len_sum(ranges)`. -/
def range_len_sum (ranges : List (Int × Int)) : Int :=
  (ranges.map range_len).sum

/-- `get_overlap_size(r0, r1)`. -/
def get_overlap_size (r0 r1 : Int × Int) : Int :=
  if r0.1 > r1.2 ∨ r1.1 > r0.2 then 0
  else min r0.2 r1.2 - max r0.1 r1.1

/-- `WidestRangeStrategy.score_move`: recompute every stack's range
with the target stack replaced by a simulated one-card stack, keep the
ranges of the stacks sharing the target's direction (the code asserts
there are exactly two), and score
`range_len_sum(pair)**2 + abs(range_len(pair[0]) - range_len(pair[1]))`.
`none` models the `IndexError`/`AssertionError` paths. -/
def score_move (move : Nat × Nat) (stacks' : List Stack) : Option Int :=
  match stacks'.get? move.2 with
  | none => none
  | some target =>
    let ranges := stacks'.enum.map (fun p =>
      if p.1 = move.2 then get_range_interval { is_up := target.is_up, cards := [move.1] }
      else get_range_interval p.2)
    let ranges_for_type :=
      ((ranges.zip stacks').filter (fun q => q.2.is_up == target.is_up)).map Prod.fst
    match ranges_for_type with
    | [r0, r1] => some (range_len_sum [r0, r1] ^ 2 + |range_len r0 - range_len r1|)
    | _ => none

end WidestRangeStrategy

/-! ## Strategy factory -/

/-- The three concrete strategy classes `get_strategy` can construct. -/
inductive StrategyKind where
  | dumb
  | greedydiff
  | widest
deriving Repr, DecidableEq

/-- `get_strategy(name)`: enumerated factory; unrecognized names raise
`ValueError("Unknown strategy: ...")`, modelled as `Except.error`. -/
def get_strategy (name : String) : Except String StrategyKind :=
  if name = "dumb" then .ok .dumb
  else if name = "greedydiff" then .ok .greedydiff
  else if name = "widest" then .ok .widest
  else .error ("Unknown strategy: " ++ name)

/-! ## Derived state predicates used by the claims -/

/-- All cards currently in play, in deck/hand/stack order. -/
def all_cards (st : GameState) : List Nat :=
  st.deck ++ st.hand ++ st.stacks'.flatMap Stack.cards

/-- Number of cards not yet played onto a stack; decreases by at least
one every turn. -/
def remaining_cards (st : GameState) : Nat :=
  st.deck.length + st.hand.length

/-- `chainB r l`: every adjacent pair of `l` satisfies `r`. -/
def chainB (r : Nat → Nat → Bool) : List Nat → Bool
  | [] => true
  | [_] => true
  | a :: b :: rest => r a b && chainB r (b :: rest)

/-- Successor relation the spec claims for ascending stacks: next card
`> previous` or `= previous + 10`. -/
def claimed_up_step (a b : Nat) : Bool :=
  decide (b > a) || decide (b = a + DIFFERENCE_RULE)

/-- Successor relation the spec claims for descending stacks: next card
`< previous` or `= previous - 10`. -/
def claimed_down_step (a b : Nat) : Bool :=
  decide (b < a) || decide (a = b + DIFFERENCE_RULE)

/-- The spec's claimed ordering invariant of a stack. -/
def claimed_stack_inv (s : Stack) : Bool :=
  if s.is_up then chainB claimed_up_step s.cards else chainB claimed_down_step s.cards

/-- Successor relation actually maintained on ascending stacks: next
card `> previous` or `= previous - 10` (rule of tens downward). -/
def actual_up_step (a b : Nat) : Bool :=
  decide (b > a) || decide (a = b + DIFFERENCE_RULE)

/-- Successor relation actually maintained on descending stacks: next
card `< previous` or `= previous + 10` (rule of tens upward). -/
def actual_down_step (a b : Nat) : Bool :=
  decide (b < a) || decide (b = a + DIFFERENCE_RULE)

/-- The ordering invariant the engine actually maintains. -/
def stack_inv (s : Stack) : Bool :=
  if s.is_up then chainB actual_up_step s.cards else chainB actual_down_step s.cards

/-! ## Claim-side definitions (phrased from the spec's words, for
comparison with the code's definitions) -/

/-- Modelled from the claim's words (C6): the "effective top" of a
stack, `top` if non-empty, else `LOWEST_CARD` for Ascending and
`HIGHEST_CARD` for Descending. -/
def spec_effective_top (s : Stack) : Nat :=
  match s.cards.getLast? with
  | none => if s.is_up then LOWEST_CARD else HIGHEST_CARD
  | some t => t

/-- Modelled from the claim's words (C7): a stack's range interval is
`[top+1, HIGHEST_CARD]` for Ascending and `[LOWEST_CARD, top-1]` for
Descending, and `[LOWEST_CARD, HIGHEST_CARD]` when empty. -/
def spec_range_interval (s : Stack) : Int × Int :=
  match s.cards.getLast? with
  | none => ((LOWEST_CARD : Int), (HIGHEST_CARD : Int))
  | some top =>
    if s.is_up then ((top : Int) + 1, (HIGHEST_CARD : Int))
    else ((LOWEST_CARD : Int), (top : Int) - 1)

/-- Modelled from the claim's words (C7): the length of interval
`[a, b]` is `b - a`. -/
def spec_range_len (r : Int × Int) : Int := r.2 - r.1

/-- The `DumbStrategy`-style chooser used for concrete runs: always
plays the first enumerated legal move (a legal move whenever any
exists). -/
def head_choose : Chooser := fun vm _ _ _ => vm.headD (0, 0)

/-! ## Basic lemmas about the move enumeration -/

/-- A move produced by the legal-move enumeration names a card that is
in the hand and a stack index that is in range, and passes
`is_valid_move` for that stack. -/
lemma valid_moves_sound {c i : Nat} {hand : List Nat} {ss : List Stack}
    (h : (c, i) ∈ valid_moves hand ss) :
    c ∈ hand ∧ ∃ s, ss.get? i = some s ∧ is_valid_move c s = true := by
  simp only [valid_moves, List.mem_flatMap, List.mem_map, List.mem_filter] at h
  obtain ⟨card, hcard, p, ⟨hp, hv⟩, heq⟩ := h
  have hc : card = c := congrArg Prod.fst heq
  have hi : p.1 = i := congrArg Prod.snd heq
  subst hc
  subst hi
  refine ⟨hcard, p.2, ?_, hv⟩
  rw [List.get?_eq_getElem?]
  exact List.mem_enum_iff_getElem?.mp hp

/-! ## Conservation machinery -/

lemma full_deck_nodup : full_deck.Nodup := by
  unfold full_deck
  exact List.nodup_range' _ _

/-- Appending a card to the stack at an in-range index adds exactly
that card to the combined stack contents. -/
lemma flatMap_set_perm (c : Nat) :
    ∀ (ss : List Stack) (i : Nat) (s : Stack), ss.get? i = some s →
      ((ss.set i (push_card s c)).flatMap Stack.cards).Perm (c :: ss.flatMap Stack.cards) := by
  intro ss
  induction ss with
  | nil => intro i s h; simp at h
  | cons hd tl ih =>
    intro i s h
    cases i with
    | zero =>
      obtain rfl : hd = s := by simpa using h
      simp only [List.set_cons_zero, List.flatMap_cons, push_card]
      exact (List.perm_append_singleton c hd.cards).append_right _
    | succ j =>
      simp only [List.get?_cons_succ] at h
      simp only [List.set_cons_succ, List.flatMap_cons]
      exact ((ih j s h).append_left hd.cards).trans List.perm_middle
/-- Applying a legal move only moves a card from the hand onto a stack:
the combined card collection is unchanged up to permutation. -/
lemma apply_move_perm {st : GameState} {m : Nat × Nat}
    (hm : m ∈ valid_moves st.hand st.stacks') :
    (all_cards (apply_move st m)).Perm (all_cards st) := by
  obtain ⟨c, i⟩ := m
  obtain ⟨hc, s, hs, -⟩ := valid_moves_sound hm
  unfold all_cards apply_move
  rw [hs]
  simp only [List.append_assoc]
  refine List.Perm.append_left st.deck ?_
  have h1 : ((st.stacks'.set i (push_card s c)).flatMap Stack.cards).Perm
      (c :: st.stacks'.flatMap Stack.cards) := flatMap_set_perm c st.stacks' i s hs
  have h2 := h1.append_left (st.hand.erase c)
  have h3 : (st.hand.erase c ++ (c :: st.stacks'.flatMap Stack.cards)).Perm
      (c :: (st.hand.erase c ++ st.stacks'.flatMap Stack.cards)) := List.perm_middle
  have h4 : (c :: (st.hand.erase c ++ st.stacks'.flatMap Stack.cards)).Perm
      (st.hand ++ st.stacks'.flatMap Stack.cards) :=
    ((List.perm_cons_erase hc).symm).append_right _
  exact (h2.trans h3).trans h4

/-- One redraw iteration moves one card from the deck into the hand
(or does nothing on an empty deck). -/
lemma draw1_perm {st : GameState} (hnd : (all_cards st).Nodup) :
    (all_cards (draw1 st)).Perm (all_cards st) := by
  cases hdeck : st.deck with
  | nil => simp [draw1, hdeck]
  | cons c rest =>
    have hcm : c ∉ st.hand := by
      unfold all_cards at hnd
      rw [hdeck] at hnd
      simp only [List.append_assoc, List.cons_append, List.nodup_cons] at hnd
      intro hmem
      exact hnd.1 (by simp [hmem])
    unfold all_cards draw1
    rw [hdeck]
    simp only [List.insert_of_not_mem hcm, List.append_assoc, List.cons_append]
    exact List.perm_middle
lemma drawN_perm (n : Nat) : ∀ {st : GameState}, (all_cards st).Nodup →
    (all_cards (drawN n st)).Perm (all_cards st) := by
  induction n with
  | zero => intro st _; simp [drawN]
  | succ k ih =>
    intro st hnd
    have h1 := draw1_perm hnd
    have hnd1 : (all_cards (draw1 st)).Nodup := h1.nodup_iff.mpr hnd
    exact (ih hnd1).trans h1

/-- The redraw check moves cards from the deck into the hand only. -/
lemma redraw_perm {st : GameState} (hnd : (all_cards st).Nodup) :
    (all_cards (redraw st)).Perm (all_cards st) := by
  unfold redraw
  split
  · exact drawN_perm REDRAW_MARGIN hnd
  · exact List.Perm.refl _

/-- One full turn (apply the move, then the redraw check) preserves the
conservation invariant. -/
lemma turn_perm {st : GameState} {m : Nat × Nat}
    (hm : m ∈ valid_moves st.hand st.stacks')
    (hperm : (all_cards st).Perm full_deck) :
    (all_cards (redraw (apply_move st m))).Perm full_deck := by
  have h1 := apply_move_perm hm
  have hnd : (all_cards (apply_move st m)).Nodup :=
    (h1.trans hperm).nodup_iff.mpr full_deck_nodup
  exact ((redraw_perm hnd).trans h1).trans hperm

/-- The conservation invariant propagates along reachability. -/
lemma reaches_perm {st0 st : GameState} (h : Reaches st0 st)
    (h0 : (all_cards st0).Perm full_deck) : (all_cards st).Perm full_deck := by
  induction h with
  | refl => exact h0
  | step hdeck hm _ ih => exact ih (turn_perm hm h0)

/-- The initial deal only splits the shuffled deck between deck and
hand. -/
lemma init_perm {deck0 : List Nat} (hd : deck0.Perm full_deck) :
    (all_cards (init deck0)).Perm full_deck := by
  unfold all_cards init
  simp only [List.flatMap_cons, List.flatMap_nil, List.append_nil]
  exact (List.perm_append_comm.trans (by rw [List.take_append_drop])).trans hd
/-- Claim C3: at every reachable turn of every game the deck, the hand
and the four stacks together hold exactly the full card range
`[LOWEST_CARD, HIGHEST_CARD]`, with no card duplicated or lost. -/
theorem conservation_invariant (deck0 : List Nat) (st : GameState)
    (hd : deck0.Perm full_deck) (hr : Reaches (init deck0) st) :
    (all_cards st).Perm full_deck ∧ (all_cards st).Nodup := by
  have h := reaches_perm hr (init_perm hd)
  exact ⟨h, h.nodup_iff.mpr full_deck_nodup⟩

/-- Witness for C3 at a concrete input: the freshly dealt game on the
unshuffled deck. -/
theorem conservation_invariant_witness :
    (all_cards (init full_deck)).Perm full_deck ∧ (all_cards (init full_deck)).Nodup :=
  conservation_invariant full_deck (init full_deck) (List.Perm.refl _) (Reaches.refl _)
/-! ## Redraw and hand-size machinery -/

/-- When the hand has not dropped by exactly `REDRAW_MARGIN` cards, or
the deck is empty, the redraw check does nothing. -/
lemma redraw_not_triggered {st : GameState}
    (h : ¬(st.hand.length = HAND_SIZE - REDRAW_MARGIN ∧ st.deck ≠ [])) :
    redraw st = st := by
  unfold redraw
  rw [if_neg]
  intro hcond
  refine h ⟨?_, hcond.2⟩
  have h1 := hcond.1
  unfold HAND_SIZE REDRAW_MARGIN at h1 ⊢
  omega

/-- When the hand has dropped to exactly `HAND_SIZE - REDRAW_MARGIN`
cards and the deck is non-empty, the redraw check draws
`min REDRAW_MARGIN |deck|` cards from the deck into the hand. -/
lemma redraw_triggered {st : GameState}
    (hlen : st.hand.length = HAND_SIZE - REDRAW_MARGIN) (hne : st.deck ≠ [])
    (hnd : (st.deck ++ st.hand).Nodup) :
    (redraw st).hand.length = st.hand.length + min REDRAW_MARGIN st.deck.length ∧
    (redraw st).deck = st.deck.drop REDRAW_MARGIN ∧
    (redraw st).stacks' = st.stacks' := by
  have hcond : (HAND_SIZE : Int) - (st.hand.length : Int) = (REDRAW_MARGIN : Int) ∧
      st.deck ≠ [] := by
    refine ⟨?_, hne⟩
    rw [hlen]
    unfold HAND_SIZE REDRAW_MARGIN
    norm_num
  unfold redraw
  rw [if_pos hcond]
  have e2 : drawN REDRAW_MARGIN st = draw1 (draw1 st) := rfl
  rw [e2]
  cases hdk : st.deck with
  | nil => exact absurd hdk hne
  | cons c rest =>
    have hc : c ∉ st.hand := by
      rw [hdk] at hnd
      simp only [List.cons_append, List.nodup_cons, List.mem_append] at hnd
      exact fun hm => hnd.1 (Or.inr hm)
    have hd1 : draw1 st = { st with deck := rest, hand := c :: st.hand } := by
      unfold draw1
      rw [hdk]
      show { st with deck := rest, hand := List.insert c st.hand } = _
      rw [List.insert_of_not_mem hc]
    cases rest with
    | nil =>
      have h2 : draw1 { st with deck := ([] : List Nat), hand := c :: st.hand } =
          { st with deck := [], hand := c :: st.hand } := rfl
      rw [hd1, h2]
      refine ⟨?_, rfl, rfl⟩
      simp only [List.length_cons, List.length_nil]
      unfold REDRAW_MARGIN
      omega
    | cons c2 rest2 =>
      have hc2 : c2 ∉ c :: st.hand := by
        rw [hdk] at hnd
        simp only [List.cons_append, List.nodup_cons, List.mem_cons, List.mem_append] at hnd
        intro hm
        rcases List.mem_cons.mp hm with h | h
        · exact hnd.1 (Or.inl h.symm)
        · exact hnd.2.1 (Or.inr h)
      have h2 : draw1 { st with deck := c2 :: rest2, hand := c :: st.hand } =
          { st with deck := rest2, hand := c2 :: c :: st.hand } := by
        show { st with deck := rest2, hand := (c :: st.hand).insert c2 } = _
        rw [List.insert_of_not_mem hc2]
      rw [hd1, h2]
      refine ⟨?_, rfl, rfl⟩
      simp only [List.length_cons]
      unfold REDRAW_MARGIN
      omega
/-- Applying a move never touches the deck. -/
lemma apply_move_deck (st : GameState) (m : Nat × Nat) :
    (apply_move st m).deck = st.deck := by
  unfold apply_move
  cases st.stacks'.get? m.2 <;> rfl

/-- For an enumerated move, applying it erases the card from the hand. -/
lemma apply_move_hand {st : GameState} {m : Nat × Nat}
    (hm : m ∈ valid_moves st.hand st.stacks') :
    (apply_move st m).hand = st.hand.erase m.1 := by
  obtain ⟨-, s, hs, -⟩ := valid_moves_sound (c := m.1) (i := m.2) (by simpa using hm)
  unfold apply_move
  rw [hs]

/-- One full turn from a loop-top state with a non-empty deck leaves
the hand at 7 or 8 cards whenever the next state still has a non-empty
deck. -/
lemma turn_hand_size {st : GameState} {m : Nat × Nat}
    (hdeck : st.deck ≠ [])
    (hm : m ∈ valid_moves st.hand st.stacks')
    (hnd : (all_cards st).Nodup)
    (hh : st.hand.length = 7 ∨ st.hand.length = 8) :
    (redraw (apply_move st m)).deck ≠ [] →
      (redraw (apply_move st m)).hand.length = 7 ∨
        (redraw (apply_move st m)).hand.length = 8 := by
  intro hne2
  have hc : m.1 ∈ st.hand := (valid_moves_sound (c := m.1) (i := m.2) (by simpa using hm)).1
  have hd1 : (apply_move st m).deck = st.deck := apply_move_deck st m
  have hh1 : (apply_move st m).hand.length = st.hand.length - 1 := by
    rw [apply_move_hand hm]
    exact List.length_erase_of_mem hc
  have hpos : 1 ≤ st.hand.length := List.length_pos.mpr (List.ne_nil_of_mem hc)
  rcases hh with h7 | h8
  · -- hand drops to 6: the redraw tops it back up
    have h6 : (apply_move st m).hand.length = HAND_SIZE - REDRAW_MARGIN := by
      rw [hh1, h7]
      unfold HAND_SIZE REDRAW_MARGIN
      omega
    have hne1 : (apply_move st m).deck ≠ [] := by rw [hd1]; exact hdeck
    have hnd1 : ((apply_move st m).deck ++ (apply_move st m).hand).Nodup := by
      have hperm : (all_cards (apply_move st m)).Perm (all_cards st) := apply_move_perm hm
      have : (all_cards (apply_move st m)).Nodup := hperm.nodup_iff.mpr hnd
      have hsub : ((apply_move st m).deck ++ (apply_move st m).hand).Sublist
          (all_cards (apply_move st m)) := by
        unfold all_cards
        exact List.sublist_append_left _ _
      exact hsub.nodup this
    obtain ⟨hlen, hdk, -⟩ := redraw_triggered h6 hne1 hnd1
    rw [hlen, h6]
    rw [hdk] at hne2
    have hdlen : REDRAW_MARGIN < (apply_move st m).deck.length := by
      by_contra hle
      exact hne2 (List.drop_eq_nil_of_le (by omega))
    right
    unfold HAND_SIZE REDRAW_MARGIN at *
    omega
  · -- hand drops to 7: no redraw
    have h7 : (apply_move st m).hand.length = 7 := by rw [hh1, h8]
    have hno : redraw (apply_move st m) = apply_move st m := by
      refine redraw_not_triggered ?_
      rintro ⟨hl, -⟩
      rw [h7] at hl
      unfold HAND_SIZE REDRAW_MARGIN at hl
      omega
    rw [hno, h7]
    exact Or.inl rfl

/-- Hand-size propagation along reachability. -/
lemma reaches_hand_size {st0 st : GameState} (h : Reaches st0 st) :
    (all_cards st0).Perm full_deck →
    (st0.deck ≠ [] → st0.hand.length = 7 ∨ st0.hand.length = 8) →
    (st.deck ≠ [] → st.hand.length = 7 ∨ st.hand.length = 8) := by
  induction h with
  | refl => exact fun _ hh => hh
  | step hdeck hm _ ih =>
    intro h0 hh0
    exact ih (turn_perm hm h0)
      (turn_hand_size hdeck hm (h0.nodup_iff.mpr full_deck_nodup) (hh0 hdeck))

/-- Claim C10: while the deck is non-empty, the hand seen by the
legal-move enumeration always holds exactly 7 or 8 cards (in
particular it is never empty before the deck runs out). -/
theorem hand_size_invariant (deck0 : List Nat) (st : GameState)
    (hd : deck0.Perm full_deck) (hr : Reaches (init deck0) st)
    (hne : st.deck ≠ []) :
    st.hand.length = 7 ∨ st.hand.length = 8 := by
  refine reaches_hand_size hr (init_perm hd) (fun _ => Or.inr ?_) hne
  have hlen : deck0.length = 98 := by
    have h := hd.length_eq
    simpa [full_deck] using h
  simp [init, List.length_take, hlen, HAND_SIZE]

/-- Witness for C10 at a concrete input: the freshly dealt game on the
unshuffled deck. -/
theorem hand_size_invariant_witness :
    (init full_deck).hand.length = 7 ∨ (init full_deck).hand.length = 8 :=
  hand_size_invariant full_deck (init full_deck) (List.Perm.refl _)
    (Reaches.refl _) (by decide)

/-- Claim C5: after a move is applied, cards are drawn exactly when the
hand has dropped to exactly `HAND_SIZE - REDRAW_MARGIN` cards (6) with
a non-empty deck — not on any other hand size — and then exactly
`REDRAW_MARGIN` cards are drawn, or fewer if the deck runs out. -/
theorem redraw_policy (st : GameState) (hnd : (st.deck ++ st.hand).Nodup) :
    (¬(st.hand.length = HAND_SIZE - REDRAW_MARGIN ∧ st.deck ≠ []) → redraw st = st) ∧
    (st.hand.length = HAND_SIZE - REDRAW_MARGIN → st.deck ≠ [] →
      (redraw st).hand.length = st.hand.length + min REDRAW_MARGIN st.deck.length ∧
      (redraw st).deck = st.deck.drop REDRAW_MARGIN) := by
  refine ⟨redraw_not_triggered, fun h1 h2 => ?_⟩
  obtain ⟨ha, hb, -⟩ := redraw_triggered h1 h2 hnd
  exact ⟨ha, hb⟩

/-- Witness for C5 at a concrete input: a 6-card hand with a 3-card
deck draws exactly 2 cards. -/
theorem redraw_policy_witness :
    (redraw ⟨[10, 11, 12], [2, 3, 4, 5, 6, 7], []⟩).hand.length = 8 ∧
    (redraw ⟨[10, 11, 12], [2, 3, 4, 5, 6, 7], []⟩).deck = [12] := by
  have h := (redraw_policy ⟨[10, 11, 12], [2, 3, 4, 5, 6, 7], []⟩ (by decide)).2
    (by decide) (by decide)
  simpa using h

/-! ## Termination -/

/-- Drawing a card never increases the count of unplayed cards. -/
lemma draw1_remaining (st : GameState) :
    remaining_cards (draw1 st) ≤ remaining_cards st := by
  cases hdk : st.deck with
  | nil =>
    have h1 : draw1 st = st := by
      unfold draw1
      rw [hdk]
    rw [h1]
  | cons c rest =>
    have h1 : draw1 st = { st with deck := rest, hand := st.hand.insert c } := by
      unfold draw1
      rw [hdk]
    rw [h1]
    unfold remaining_cards
    simp only
    rw [hdk]
    simp only [List.length_cons]
    by_cases hc : c ∈ st.hand
    · rw [List.length_insert_of_mem hc]
      omega
    · rw [List.length_insert_of_not_mem hc]
      omega

lemma drawN_remaining (n : Nat) : ∀ st : GameState,
    remaining_cards (drawN n st) ≤ remaining_cards st := by
  induction n with
  | zero => exact fun st => le_refl _
  | succ k ih =>
    intro st
    exact Nat.le_trans (ih (draw1 st)) (draw1_remaining st)

lemma redraw_remaining (st : GameState) :
    remaining_cards (redraw st) ≤ remaining_cards st := by
  unfold redraw
  split
  · exact drawN_remaining REDRAW_MARGIN st
  · exact le_refl _

/-- Every turn strictly decreases the count of unplayed cards. -/
lemma turn_remaining {st : GameState} {m : Nat × Nat}
    (hm : m ∈ valid_moves st.hand st.stacks') :
    remaining_cards (redraw (apply_move st m)) < remaining_cards st := by
  have hc : m.1 ∈ st.hand := (valid_moves_sound (c := m.1) (i := m.2) (by simpa using hm)).1
  have h1 : remaining_cards (apply_move st m) < remaining_cards st := by
    unfold remaining_cards
    rw [apply_move_deck, apply_move_hand hm]
    have := List.length_erase_of_mem hc
    have hpos : 1 ≤ st.hand.length := List.length_pos.mpr (List.ne_nil_of_mem hc)
    omega
  exact Nat.lt_of_le_of_lt (redraw_remaining _) h1

/-- The fueled loop always yields a result when given more fuel than
there are unplayed cards, provided the strategy picks legal moves. -/
lemma play_loop_total (choose : Chooser)
    (hvalid : ∀ vm hand ss deck, vm ≠ [] → choose vm hand ss deck ∈ vm) :
    ∀ (fuel : Nat) (st : GameState), remaining_cards st < fuel →
      play_loop choose fuel st ≠ none := by
  intro fuel
  induction fuel with
  | zero => intro st h; omega
  | succ k ih =>
    intro st h
    unfold play_loop
    split
    · simp
    · cases hstep : step choose st with
      | stuck sc => simp
      | next st2 =>
        unfold step at hstep
        simp only at hstep
        split at hstep
        · exact absurd hstep (by simp)
        · rename_i hvm
          obtain rfl : redraw (apply_move st
              (choose (valid_moves st.hand st.stacks') st.hand st.stacks' st.deck)) = st2 := by
            injection hstep
          have hmem := hvalid _ st.hand st.stacks' st.deck hvm
          have hlt := turn_remaining hmem
          exact ih _ (by omega)

/-- Claim C8: for every strategy that picks a legal move and every
shuffled deck, `play_game` yields a result within `|deck0| + 1` turns:
the loop cannot run forever. -/
theorem play_game_terminates (choose : Chooser)
    (hvalid : ∀ vm hand ss deck, vm ≠ [] → choose vm hand ss deck ∈ vm)
    (deck0 : List Nat) :
    play_game choose deck0 ≠ none := by
  have hm : remaining_cards (init deck0) = deck0.length := by
    unfold remaining_cards init
    simp only [List.length_drop, List.length_take]
    omega
  exact play_loop_total choose hvalid (deck0.length + 1) (init deck0) (by omega)

/-- Witness for C8 at a concrete input: the first-legal-move chooser on
the unshuffled deck. -/
theorem play_game_terminates_witness :
    play_game head_choose full_deck ≠ none :=
  play_game_terminates head_choose
    (by
      intro vm hand ss deck hvm
      cases vm with
      | nil => exact absurd rfl hvm
      | cons a t => exact List.mem_cons_self a t)
    full_deck

/-- Claim C1 (refuted by the code): with the unshuffled deck and the
first-legal-move strategy the deck is eventually exhausted while the
game is not stuck, and `play_game` falls out of its
`while len(deck) > 0` loop returning `None` (`some none`) instead of
continuing to play the remaining hand and returning the integer
`len(deck) + len(hand)`. -/
theorem play_game_deck_exhaustion_returns_none :
    play_game head_choose full_deck = some none := by decide

/-- Claim C2: `is_valid_move` returns true exactly for an empty stack,
a rule-of-tens match (in either direction, whatever the stack's
direction), or an ordering match for the stack's direction.  As a
function of its two arguments it has no side effects by construction. -/
theorem is_valid_move_iff (candidate : Nat) (stack : Stack) :
    is_valid_move candidate stack = true ↔
      stack.cards = [] ∨
      ∃ top, stack.cards.getLast? = some top ∧
        (((candidate : Int) - (top : Int)).natAbs = DIFFERENCE_RULE ∨
         (stack.is_up = true ∧ top < candidate) ∨
         (stack.is_up = false ∧ candidate < top)) := by
  unfold is_valid_move
  cases h : stack.cards.getLast? with
  | none =>
    rw [List.getLast?_eq_none_iff] at h
    simp [h]
  | some top =>
    have hne : stack.cards ≠ [] := by
      intro hnil
      rw [hnil] at h
      simp at h
    simp only [hne, false_or]
    constructor
    · intro hv
      refine ⟨top, rfl, ?_⟩
      split_ifs at hv with h1 h2
      · exact Or.inl h1
      · exact Or.inr (Or.inl ⟨h2, by simpa using hv⟩)
      · refine Or.inr (Or.inr ⟨?_, by simpa using hv⟩)
        cases hu : stack.is_up
        · rfl
        · exact absurd hu h2
    · rintro ⟨top', htop', hcase⟩
      obtain rfl : top = top' := by injection htop'
      rcases hcase with h1 | ⟨hup, hlt⟩ | ⟨hdn, hlt⟩
      · simp [h1]
      · split_ifs
        · rfl
        · simpa [hup]
      · split_ifs with h1 h2
        · rfl
        · rw [hdn] at h2
          exact absurd h2 Bool.false_ne_true
        · simpa

/-- Witness for C2 at concrete inputs: a rule-of-tens downward move on
an ascending stack is legal. -/
theorem is_valid_move_iff_witness :
    is_valid_move 40 ⟨true, [50]⟩ = true :=
  (is_valid_move_iff 40 ⟨true, [50]⟩).mpr
    (Or.inr ⟨50, by decide, Or.inl (by decide)⟩)

/-! ## Stack ordering machinery -/

lemma chainB_append (r : Nat → Nat → Bool) :
    ∀ (l : List Nat) (c : Nat),
      chainB r (l ++ [c]) =
        (chainB r l && (match l.getLast? with | none => true | some t => r t c)) := by
  intro l
  induction l with
  | nil => intro c; rfl
  | cons a t ih =>
    intro c
    cases t with
    | nil => simp [chainB]
    | cons b t2 =>
      have e : chainB r ((a :: b :: t2) ++ [c]) =
          (r a b && chainB r ((b :: t2) ++ [c])) := rfl
      rw [e, ih c]
      simp [chainB, List.getLast?_cons_cons, Bool.and_assoc]

/-- A legal move satisfies the successor relation the engine actually
maintains for the target stack's direction. -/
lemma is_valid_move_actual_step {c : Nat} {s : Stack} {t : Nat}
    (htop : s.cards.getLast? = some t)
    (hv : is_valid_move c s = true) :
    (if s.is_up then actual_up_step t c else actual_down_step t c) = true := by
  have hv' : (if ((c : Int) - (t : Int)).natAbs = DIFFERENCE_RULE then true
      else if s.is_up then decide (c > t) else decide (c < t)) = true := by
    unfold is_valid_move at hv
    rw [htop] at hv
    exact hv
  unfold actual_up_step actual_down_step DIFFERENCE_RULE at *
  by_cases h10 : ((c : Int) - (t : Int)).natAbs = 10
  · have h' : c = t + 10 ∨ t = c + 10 := by
      rcases Int.natAbs_eq_iff.mp h10 with he | he
      · left; omega
      · right; omega
    cases hu : s.is_up
    · simp only [Bool.false_eq_true, if_false, Bool.or_eq_true, decide_eq_true_eq]
      omega
    · simp only [if_true, Bool.or_eq_true, decide_eq_true_eq]
      omega
  · rw [if_neg h10] at hv'
    cases hu : s.is_up
    · rw [hu] at hv'
      simp only [Bool.false_eq_true, if_false, Bool.or_eq_true, decide_eq_true_eq] at hv' ⊢
      exact Or.inl hv'
    · rw [hu] at hv'
      simp only [if_true, Bool.or_eq_true, decide_eq_true_eq] at hv' ⊢
      exact Or.inl hv'

lemma draw1_stacks (st : GameState) : (draw1 st).stacks' = st.stacks' := by
  unfold draw1
  cases st.deck <;> rfl

lemma drawN_stacks (n : Nat) : ∀ st : GameState, (drawN n st).stacks' = st.stacks' := by
  induction n with
  | zero => exact fun st => rfl
  | succ k ih => exact fun st => (ih (draw1 st)).trans (draw1_stacks st)

lemma redraw_stacks (st : GameState) : (redraw st).stacks' = st.stacks' := by
  unfold redraw
  split
  · exact drawN_stacks REDRAW_MARGIN st
  · rfl

/-- One turn preserves the ordering invariant of every stack. -/
lemma turn_stack_inv {st : GameState} {m : Nat × Nat}
    (hm : m ∈ valid_moves st.hand st.stacks')
    (hinv : ∀ s ∈ st.stacks', stack_inv s = true) :
    ∀ s ∈ (redraw (apply_move st m)).stacks', stack_inv s = true := by
  rw [redraw_stacks]
  obtain ⟨-, s0, hs0, hv⟩ := valid_moves_sound (c := m.1) (i := m.2) (by simpa using hm)
  intro s hs
  unfold apply_move at hs
  rw [hs0] at hs
  simp only at hs
  rcases List.mem_or_eq_of_mem_set hs with hold | rfl
  · exact hinv s hold
  · -- the target stack with the new card appended
    have hbase := hinv s0 (List.get?_mem hs0)
    unfold stack_inv at hbase ⊢
    unfold push_card
    simp only
    cases hu : s0.is_up
    · rw [hu] at hbase
      simp only [Bool.false_eq_true, if_false] at hbase ⊢
      rw [chainB_append, hbase, Bool.true_and]
      cases htop : s0.cards.getLast? with
      | none => rfl
      | some t =>
        have h := is_valid_move_actual_step htop hv
        rw [hu] at h
        simpa using h
    · rw [hu] at hbase
      simp only [if_true] at hbase ⊢
      rw [chainB_append, hbase, Bool.true_and]
      cases htop : s0.cards.getLast? with
      | none => rfl
      | some t =>
        have h := is_valid_move_actual_step htop hv
        rw [hu] at h
        simpa using h

/-- Ordering-invariant propagation along reachability. -/
lemma reaches_stack_inv {st0 st : GameState} (h : Reaches st0 st) :
    (∀ s ∈ st0.stacks', stack_inv s = true) →
    (∀ s ∈ st.stacks', stack_inv s = true) := by
  induction h with
  | refl => exact fun hh => hh
  | step hdeck hm _ ih => exact fun hh => ih (turn_stack_inv hm hh)

/-- Claim C4, amended: in every reachable state each ascending stack's
successors are `> previous` or exactly `previous - 10`, and each
descending stack's successors are `< previous` or exactly
`previous + 10` (the rule of tens crosses the ordering in the
direction the ordering rule forbids). -/
theorem stack_order_invariant (deck0 : List Nat) (st : GameState)
    (hr : Reaches (init deck0) st) :
    ∀ s ∈ st.stacks', stack_inv s = true := by
  refine reaches_stack_inv hr ?_
  intro s hs
  simp only [init, List.mem_cons, List.not_mem_nil, or_false] at hs
  rcases hs with rfl | rfl | rfl | rfl <;> rfl

/-- Witness for the amended C4 at a concrete input: the freshly dealt
(empty) first up-stack satisfies the invariant. -/
theorem stack_order_invariant_witness : stack_inv ⟨true, []⟩ = true :=
  stack_order_invariant full_deck (init full_deck) (Reaches.refl _)
    ⟨true, []⟩ (by decide)

/-- A shuffled deck whose first two hand cards are 50 and 40. -/
def deckC4 : List Nat := 50 :: 40 :: ((full_deck.erase 50).erase 40)

/-- The state after legally playing 50 and then 40 (rule of tens) onto
the first ascending stack. -/
def stC4 : GameState :=
  redraw (apply_move (redraw (apply_move (init deckC4) (50, 0))) (40, 0))

/-- Claim C4 as stated is false: the rule of tens lets the engine place
`top - 10` on an ascending stack, so the claimed "successor `> previous`
or `= previous + 10`" invariant fails in a reachable state (first
ascending stack `[50, 40]`). -/
theorem claimed_stack_order_refuted :
    ¬ (∀ (deck0 : List Nat) (st : GameState), deck0.Perm full_deck →
        Reaches (init deck0) st →
        ∀ s ∈ st.stacks', claimed_stack_inv s = true) := by
  intro h
  have hr : Reaches (init deckC4) stC4 :=
    Reaches.step (m := (50, 0)) (by decide) (by decide)
      (Reaches.step (m := (40, 0)) (by decide) (by decide) (Reaches.refl stC4))
  have h0 := h deckC4 stC4 (by decide) hr ⟨true, [50, 40]⟩ (by decide)
  exact absurd h0 (by decide)

/-- Claim C6: GreedyDifference scores a move as the signed gap
`card - effective_top`, negated on ascending stacks, with the empty
stack's effective top being `LOWEST_CARD` (ascending) or
`HIGHEST_CARD` (descending). -/
theorem greedydiff_score_spec (move : Nat × Nat) (ss : List Stack) (stack : Stack)
    (h : ss.get? move.2 = some stack) :
    GreedyDifferenceStrategy.score_move move ss =
      some (if stack.is_up then -((move.1 : Int) - (spec_effective_top stack : Int))
            else (move.1 : Int) - (spec_effective_top stack : Int)) := by
  unfold GreedyDifferenceStrategy.score_move
  rw [h]
  unfold spec_effective_top
  cases htop : stack.cards.getLast? <;> cases hu : stack.is_up <;> simp [htop, hu, neg_sub]

/-- Witness for C6 at a concrete input: placing 99 on an empty
descending stack scores 0. -/
theorem greedydiff_score_spec_witness :
    GreedyDifferenceStrategy.score_move (99, 0) [⟨false, []⟩] = some 0 := by
  have h := greedydiff_score_spec (99, 0) [⟨false, []⟩] ⟨false, []⟩ rfl
  simpa [spec_effective_top, HIGHEST_CARD] using h

/-- The code's range-interval function agrees with the spec's phrasing
of it (empty stack maps to the full range `[LOWEST_CARD,
HIGHEST_CARD]`). -/
lemma get_range_interval_eq_spec (s : Stack) :
    WidestRangeStrategy.get_range_interval s = spec_range_interval s := by
  unfold WidestRangeStrategy.get_range_interval spec_range_interval
  unfold LOWEST_CARD HIGHEST_CARD
  cases htop : s.cards.getLast? <;> cases hu : s.is_up <;> simp [htop, hu]

/-- Claim C7: on the standard 2-up/2-down board WidestRange scores a
move as `(L1 + L2)^2 + |L1 - L2|`, where `L1, L2` are the `b - a`
lengths of the spec range intervals of the two stacks sharing the
target's direction, the target replaced by a simulated one-card stack
holding the moved card. -/
theorem widest_score_spec (c : Nat) (u1 u2 d1 d2 : List Nat) :
    (WidestRangeStrategy.score_move (c, 0) [⟨true, u1⟩, ⟨true, u2⟩, ⟨false, d1⟩, ⟨false, d2⟩] =
      some ((spec_range_len (spec_range_interval ⟨true, [c]⟩) +
             spec_range_len (spec_range_interval ⟨true, u2⟩)) ^ 2 +
            |spec_range_len (spec_range_interval ⟨true, [c]⟩) -
             spec_range_len (spec_range_interval ⟨true, u2⟩)|)) ∧
    (WidestRangeStrategy.score_move (c, 1) [⟨true, u1⟩, ⟨true, u2⟩, ⟨false, d1⟩, ⟨false, d2⟩] =
      some ((spec_range_len (spec_range_interval ⟨true, u1⟩) +
             spec_range_len (spec_range_interval ⟨true, [c]⟩)) ^ 2 +
            |spec_range_len (spec_range_interval ⟨true, u1⟩) -
             spec_range_len (spec_range_interval ⟨true, [c]⟩)|)) ∧
    (WidestRangeStrategy.score_move (c, 2) [⟨true, u1⟩, ⟨true, u2⟩, ⟨false, d1⟩, ⟨false, d2⟩] =
      some ((spec_range_len (spec_range_interval ⟨false, [c]⟩) +
             spec_range_len (spec_range_interval ⟨false, d2⟩)) ^ 2 +
            |spec_range_len (spec_range_interval ⟨false, [c]⟩) -
             spec_range_len (spec_range_interval ⟨false, d2⟩)|)) ∧
    (WidestRangeStrategy.score_move (c, 3) [⟨true, u1⟩, ⟨true, u2⟩, ⟨false, d1⟩, ⟨false, d2⟩] =
      some ((spec_range_len (spec_range_interval ⟨false, d1⟩) +
             spec_range_len (spec_range_interval ⟨false, [c]⟩)) ^ 2 +
            |spec_range_len (spec_range_interval ⟨false, d1⟩) -
             spec_range_len (spec_range_interval ⟨false, [c]⟩)|)) := by
  refine ⟨?_, ?_, ?_, ?_⟩ <;>
    · unfold WidestRangeStrategy.score_move
      simp [List.enum, List.enumFrom, WidestRangeStrategy.range_len_sum,
        WidestRangeStrategy.range_len, get_range_interval_eq_spec, spec_range_len]

/-- Witness for C7 at a concrete input. -/
theorem widest_score_spec_witness :
    WidestRangeStrategy.score_move (15, 0)
      [⟨true, []⟩, ⟨true, []⟩, ⟨false, []⟩, ⟨false, []⟩] = some 32414 := by
  have h := (widest_score_spec 15 [] [] [] []).1
  rw [h]
  decide

/-- Claim C9: the factory maps exactly the three known names to their
strategies and fails with the propagated "unknown strategy" error on
every other name, before any game is played. -/
theorem get_strategy_spec (name : String) :
    (get_strategy name = .ok .dumb ↔ name = "dumb") ∧
    (get_strategy name = .ok .greedydiff ↔ name = "greedydiff") ∧
    (get_strategy name = .ok .widest ↔ name = "widest") ∧
    (name ≠ "dumb" → name ≠ "greedydiff" → name ≠ "widest" →
      get_strategy name = .error ("Unknown strategy: " ++ name)) := by
  unfold get_strategy
  by_cases h1 : name = "dumb"
  · subst h1
    refine ⟨by simp, by simp, by simp, fun hd _ _ => absurd rfl hd⟩
  · by_cases h2 : name = "greedydiff"
    · subst h2
      refine ⟨by simp, by simp, by simp, fun _ hd _ => absurd rfl hd⟩
    · by_cases h3 : name = "widest"
      · subst h3
        refine ⟨by simp, by simp, by simp, fun _ _ hd => absurd rfl hd⟩
      · rw [if_neg h1, if_neg h2, if_neg h3]
        refine ⟨by simp [h1], by simp [h2], by simp [h3], fun _ _ _ => rfl⟩

/-- Witness for C9 at a concrete input: an unknown name produces the
propagated error. -/
theorem get_strategy_spec_witness :
    get_strategy "smart" = .error ("Unknown strategy: " ++ "smart") :=
  (get_strategy_spec "smart").2.2.2 (by decide) (by decide) (by decide)
